import Mathlib

/-!
Verification development for the paper-summarizer repository.

The Python sources (`pdf_processor.py`, `summarizer.py`) are shallowly
embedded below.  Python strings are modelled as `List Char`; Python string
predicates (`isupper`, `lower`, `strip`, `\d`, `\s`) are modelled over the
ASCII range, which covers the text these claims are about.  Python dicts
(insertion-ordered, value update keeps the key position) are modelled as
association lists with an update-in-place insert.
-/

set_option maxRecDepth 10000

namespace PaperSummarizer

abbrev Str := List Char

/-- Python whitespace characters relevant to `str.strip` and regex `\s`
(ASCII model). -/
def isPySpace (c : Char) : Bool :=
  c == ' ' || c == '\t' || c == '\n' || c == '\r' ||
  c == Char.ofNat 11 || c == Char.ofNat 12

/-- Regex `\d` (ASCII model). -/
def isDigitC (c : Char) : Bool := '0' ≤ c && c ≤ '9'

/-- Character class `[IVXivx]` after lower-casing: the lower-case Roman
numeral letters. -/
def isRomanLower (c : Char) : Bool := c == 'i' || c == 'v' || c == 'x'

/-- Character class `[IVXivx]` as written in the source (both cases). -/
def isRomanAny (c : Char) : Bool :=
  c == 'I' || c == 'V' || c == 'X' || c == 'i' || c == 'v' || c == 'x'

def isAsciiUpperC (c : Char) : Bool := 'A' ≤ c && c ≤ 'Z'

def isAsciiLowerC (c : Char) : Bool := 'a' ≤ c && c ≤ 'z'

def isAsciiAlphaC (c : Char) : Bool := isAsciiUpperC c || isAsciiLowerC c

/-- Python `str.lower` (ASCII model). -/
def toLowerC (c : Char) : Char :=
  if isAsciiUpperC c then Char.ofNat (c.toNat + 32) else c

def toLowerL (l : Str) : Str := l.map toLowerC

/-- Python `str.isupper` (ASCII model): at least one cased character and no
lower-case character. -/
def pyIsUpper (l : Str) : Bool := l.any isAsciiAlphaC && !(l.any isAsciiLowerC)

/-- Python `str.strip()`. -/
def stripL (l : Str) : Str :=
  ((l.dropWhile isPySpace).reverse.dropWhile isPySpace).reverse

/-- Python `s.split('\n')`: splits at every newline, keeping empty pieces;
the empty string splits to `[""]`. -/
def splitLines : Str → List Str
  | [] => [[]]
  | c :: t =>
    if c = '\n' then [] :: splitLines t
    else
      match splitLines t with
      | [] => [[c]]
      | h :: r => (c :: h) :: r

/-- Python `"\n".join(pieces)`. -/
def joinNL : List Str → Str
  | [] => []
  | [l] => l
  | l :: l2 :: ls => l ++ '\n' :: joinNL (l2 :: ls)

/-- Length of the maximal run of characters satisfying `p` at the front. -/
def countWhile (p : Char → Bool) (l : Str) : Nat := (l.takeWhile p).length

/-- Association-list lookup (first match), modelling Python dict access. -/
def lookupL {β : Type} (m : List (Str × β)) (k : Str) : Option β :=
  match m with
  | [] => none
  | (k0, v) :: t => if k0 = k then some v else lookupL t k

/-- Python dict assignment `d[k] = v`: update in place when the key exists
(keeping its position), otherwise append. -/
def insertA {β : Type} : List (Str × β) → Str → β → List (Str × β)
  | [], k, v => [(k, v)]
  | (k0, v0) :: t, k, v =>
    if k0 = k then (k, v) :: t else (k0, v0) :: insertA t k v

abbrev AList := List (Str × Str)

/-! ### The section vocabulary (pdf_processor.py lines 26-31)

The Python list literal is missing a comma between `"experiments"` and
`"results"`, so adjacent string literals concatenate into the single token
`"experimentsresults"`. -/

def commonSections : List Str :=
  ["abstract".data, "introduction".data, "background".data,
   "methodology".data, "methods".data, "experimental setup".data,
   "experiment".data, "experimentsresults".data,
   "discussion".data, "conclusion".data, "conclusions".data,
   "references".data, "acknowledgments".data, "related work".data]

/-! ### The primary header pattern (pdf_processor.py line 33)

`(?im)^(?:\d+\.?\d*\s*|[IVXivx]+\.?\s*)?(tok1|...|tokN)(?:\s*:|$)` searched
with `re.search` over `line.strip()` (no newline inside a line, so `^` pins
the match to position 0).  We model it over the lower-cased trimmed line.
The backtracking order of the Python engine is reproduced: the optional
prefix tries its digit alternative first (longest `\d+` first, `\.?` present
first, then `\d*` and `\s*` longest first, innermost quantifier varying
fastest), then the Roman alternative, then the empty prefix; at each prefix
endpoint the vocabulary alternatives are tried in order. -/

/-- `[n, n-1, ..., 1]`. -/
def descFrom1 (n : Nat) : List Nat := (List.range n).reverse.map (· + 1)

/-- `[n, n-1, ..., 0]`. -/
def descFrom0 (n : Nat) : List Nat := (List.range (n + 1)).reverse

/-- Choices for `\.?` at the front of `r`: take the dot first when present. -/
def dotOpts (r : Str) : List Nat :=
  if r.head? = some '.' then [1, 0] else [0]

/-- Endpoints reachable by `\d+\.?\d*\s*` from position 0 of `t`, in the
engine's backtracking order. -/
def digitEndpoints (t : Str) : List Nat :=
  (descFrom1 (countWhile isDigitC t)).flatMap (fun d1 =>
    (dotOpts (t.drop d1)).flatMap (fun dt =>
      (descFrom0 (countWhile isDigitC (t.drop (d1 + dt)))).flatMap (fun d2 =>
        (descFrom0 (countWhile isPySpace (t.drop (d1 + dt + d2)))).map
          (fun s => d1 + dt + d2 + s))))

/-- Endpoints reachable by `[ivx]+\.?\s*` from position 0 of the lower-cased
`t`, in the engine's backtracking order. -/
def romanEndpoints (t : Str) : List Nat :=
  (descFrom1 (countWhile isRomanLower t)).flatMap (fun r =>
    (dotOpts (t.drop r)).flatMap (fun dt =>
      (descFrom0 (countWhile isPySpace (t.drop (r + dt)))).map
        (fun s => r + dt + s)))

/-- After the matched vocabulary token the pattern requires `(?:\s*:|$)`;
anything may follow the colon (`re.search`, not `fullmatch`). -/
def suffixOkB (r : Str) : Bool :=
  r.isEmpty || ((r.dropWhile isPySpace).head? == some ':')

/-- The pattern rule applied to a lower-cased trimmed line: the matched
vocabulary token (`match.group(1)` lower-cased), or `none`. -/
def matchPattern (t : Str) : Option Str :=
  (digitEndpoints t ++ romanEndpoints t ++ [0]).findSome? (fun e =>
    commonSections.find? (fun tok =>
      tok.isPrefixOf (t.drop e) && suffixOkB (t.drop (e + tok.length))))

/-- Leftmost case-insensitive search for a vocabulary token as a substring
(`re.search(r"(?i)(tok1|...|tokN)", line)`): positions left to right, and at
each position the alternatives in vocabulary order. -/
def leftmostToken (l : Str) : Option Str :=
  (List.range (l.length + 1)).findSome? (fun p =>
    commonSections.find? (fun tok => tok.isPrefixOf (l.drop p)))

/-- Header classification of one line (pdf_processor.py lines 41-50):
the pattern rule on the trimmed line, else the all-caps fallback rule.
Returns the section name the line resolves to (`match.group(1).lower()`). -/
def isSectionHeader (line : Str) : Option Str :=
  match matchPattern (toLowerL (stripL line)) with
  | some tok => some tok
  | none =>
    if pyIsUpper (stripL line) then leftmostToken (toLowerL line) else none

/-! ### Primary segmentation pass (pdf_processor.py lines 37-63)

State: the current section name (initially `"unknown"`), the accumulated
content lines, and the processor's `self.sections` dict (which the method
mutates in place — it is passed in, not created fresh). -/

def primaryGo : List Str → Str → List Str → AList → AList
  | [], cur, acc, s =>
    if acc = [] then s else insertA s cur (stripL (joinNL acc))
  | l :: ls, cur, acc, s =>
    match isSectionHeader l with
    | some tok =>
      primaryGo ls tok []
        (if acc = [] then s else insertA s cur (stripL (joinNL acc)))
    | none => primaryGo ls cur (acc ++ [l]) s

def primaryPass (lines : List Str) (s0 : AList) : AList :=
  primaryGo lines "unknown".data [] s0

/-! ### Fallback pass (`_try_alternative_section_detection`,
pdf_processor.py lines 71-104) -/

/-- Regex `^\d+\.?\s+[A-Z]` via `re.match` (anchored, case-sensitive). -/
def digitHeadB (l : Str) : Bool :=
  let d := countWhile isDigitC l
  if d = 0 then false
  else
    let r1 := l.drop d
    let r2 := match r1 with
              | '.' :: t => t
              | _ => r1
    let sp := countWhile isPySpace r2
    if sp = 0 then false
    else match r2.drop sp with
         | c :: _ => isAsciiUpperC c
         | [] => false

/-- Regex `^[IVXivx]+\.?\s+[A-Z]` via `re.match`. -/
def romanHeadB (l : Str) : Bool :=
  let d := countWhile isRomanAny l
  if d = 0 then false
  else
    let r1 := l.drop d
    let r2 := match r1 with
              | '.' :: t => t
              | _ => r1
    let sp := countWhile isPySpace r2
    if sp = 0 then false
    else match r2.drop sp with
         | c :: _ => isAsciiUpperC c
         | [] => false

/-- Candidate-header test for line index `i` (pdf_processor.py lines 83-87):
trimmed length below 100, all-caps or numbered or Roman-numbered, and the
next line absent or blank. -/
def isCandidate (lines : List Str) (i : Nat) : Bool :=
  let l := stripL (lines.getD i [])
  l.length < 100 &&
  (pyIsUpper l || digitHeadB l || romanHeadB l) &&
  (lines.length ≤ i + 1 || stripL (lines.getD (i + 1) []) = [])

/-- The `potential_sections` list: `(line index, stripped line)` pairs. -/
def potentials (lines : List Str) : List (Nat × Str) :=
  (List.range lines.length).filterMap (fun i =>
    if isCandidate lines i then some (i, stripL (lines.getD i [])) else none)

/-- Python slice `lines[a:b]`. -/
def slice (lines : List Str) (a b : Nat) : List Str := (lines.drop a).take (b - a)

/-- Header clean-up (pdf_processor.py line 100):
`re.sub(r'^\d+\.?\s*|^[IVXivx]+\.?\s*', '', header.lower())`.  On the
lower-cased header the Roman class reduces to `[ivx]`; the greedy leftmost
match removes the maximal digit run (or, failing that, the maximal run of
the letters i, v, x), an optional dot, and any following whitespace. -/
def afterDot (r : Str) : Str :=
  match r with
  | '.' :: t => t
  | _ => r

def cleanHeader (l : Str) : Str :=
  let d := countWhile isDigitC l
  if d ≠ 0 then (afterDot (l.drop d)).dropWhile isPySpace
  else
    let rr := countWhile isRomanLower l
    if rr ≠ 0 then (afterDot (l.drop rr)).dropWhile isPySpace
    else l

/-- Building `new_sections` from the candidate list (pdf_processor.py
lines 92-101): each candidate's body is the lines strictly between its line
and the next candidate's line (or end of document). -/
def buildGo (lines : List Str) : List (Nat × Str) → AList → AList
  | [], s => s
  | (ln, h) :: rest, s =>
    let nxt := match rest with
               | [] => lines.length
               | (ln2, _) :: _ => ln2
    buildGo lines rest
      (insertA s (cleanHeader (toLowerL h))
        (stripL (joinNL (slice lines (ln + 1) nxt))))

/-- The fallback pass output (`new_sections`) for a full text. -/
def altSections (t : Str) : AList :=
  buildGo (splitLines t) (potentials (splitLines t)) []

/-- `_try_alternative_section_detection`: replace `self.sections` by
`new_sections` when candidates exist and the new dict is strictly larger. -/
def tryAlternative (t : Str) (s : AList) : AList :=
  let pot := potentials (splitLines t)
  if pot = [] then s
  else
    let ns := buildGo (splitLines t) pot []
    if s.length < ns.length then ns else s

/-- `identify_sections` (pdf_processor.py lines 24-69), with the processor's
stored `self.sections` passed in as `s0` (a fresh processor has `s0 = []`).
-/
def identifySections (t : Str) (s0 : AList) : AList :=
  let s1 := primaryPass (splitLines t) s0
  if s1.length ≤ 2 then tryAlternative t s1 else s1

/-! ### Specification-level view of the primary pass

`blocksGo` records the (section name, content lines) pairs the primary loop
walks through; `primaryGo` is then a fold that stores each nonempty block.
This is only a restructuring device for proofs; `primaryGo` above is the
translation of the source. -/

def blocksGo : List Str → Str → List Str → List (Str × List Str)
  | [], cur, acc => [(cur, acc)]
  | l :: ls, cur, acc =>
    match isSectionHeader l with
    | some tok => (cur, acc) :: blocksGo ls tok []
    | none => blocksGo ls cur (acc ++ [l])

/-- Storing one block into the dict, skipping blocks with no content lines.
-/
def storeBlock (s : AList) (b : Str × List Str) : AList :=
  if b.2 = [] then s else insertA s b.1 (stripL (joinNL b.2))

/-- The entries the primary pass would store, in order, when started on an
empty dict. -/
def blockEntries (t : Str) : AList :=
  (blocksGo (splitLines t) "unknown".data []).filterMap (fun b =>
    if b.2 = [] then none else some (b.1, stripL (joinNL b.2)))

/-! ### Summarization client (summarizer.py)

The generative backend is an external collaborator; a call either returns
the generated text or, on any failure, the summarizer catches the exception
and returns `""`.  Both outcomes are covered by modelling the round trip as
an arbitrary function `g` from prompt to returned string. -/

def sectionPrompt (name text : Str) : Str :=
  "Summarize the following ".data ++ name ++
  " section of a research paper.\n        Focus on the key points and maintain academic language.\n        Keep the summary concise but informative.\n\n        ".data ++
  text ++ "\n\n        Summary:".data

def overallPrompt (main : Str) : Str :=
  "Create a brief overview of this research paper.\n        Focus on the main contributions and findings.\n\n        ".data ++
  main ++ "\n\n        Overview:".data

/-- `summarize_section` (summarizer.py lines 32-45): empty section text
short-circuits to the empty string without a backend call. -/
def summarizeSection (g : Str → Str) (text name : Str) : Str :=
  if text = [] then [] else g (sectionPrompt name text)

/-- The keys excluded from per-section summarization (summarizer.py
line 53). -/
def skippedNames : List Str :=
  ["unknown".data, "references".data, "acknowledgments".data]

/-- One step of the per-section loop of `generate_full_summary`. -/
def summaryStep (g : Str → Str) (acc : AList) (p : Str × Str) : AList :=
  if toLowerL p.1 ∉ skippedNames then
    let s := summarizeSection g p.2 p.1
    if s ≠ [] then insertA acc p.1 s else acc
  else acc

/-- `generate_full_summary` (summarizer.py lines 47-72), with the paper
content split into its `sections` map and `full_text` string. -/
def generateFullSummary (g : Str → Str) (sections : AList) (fullText : Str) :
    AList :=
  let summaries := sections.foldl (summaryStep g) []
  let mainText := match lookupL sections "abstract".data with
                  | some a => a
                  | none => fullText.take 1000
  insertA summaries "overview".data (g (overallPrompt mainText))

/-! ### Metadata extraction (`get_metadata`, pdf_processor.py lines 110-134)

Raw metadata values are strings or byte sequences.  A byte value is decoded
as strict UTF-8; on failure the code falls back to Python's `str(value)`,
the `repr` of the bytes object. -/

inductive RawValue where
  | strV (s : Str)
  | bytesV (b : List Nat)
deriving DecidableEq

/-- Continuation byte test `0x80..0xBF`. -/
def contB (b : Nat) : Bool := 0x80 ≤ b && b ≤ 0xBF

/-- Strict UTF-8 decoding as performed by `bytes.decode('utf-8')`:
rejects truncated sequences, stray continuation bytes, overlong encodings,
surrogates and code points above U+10FFFF. -/
def utf8Decode : List Nat → Option Str
  | [] => some []
  | b :: rest =>
    if b < 0x80 then (utf8Decode rest).map (Char.ofNat b :: ·)
    else if b < 0xC2 then none
    else if b ≤ 0xDF then
      match rest with
      | c1 :: r2 =>
        if contB c1 then
          (utf8Decode r2).map (Char.ofNat ((b - 0xC0) * 0x40 + (c1 - 0x80)) :: ·)
        else none
      | [] => none
    else if b ≤ 0xEF then
      match rest with
      | c1 :: c2 :: r2 =>
        if (if b = 0xE0 then 0xA0 ≤ c1 && c1 ≤ 0xBF
            else if b = 0xED then 0x80 ≤ c1 && c1 ≤ 0x9F
            else contB c1) && contB c2 then
          (utf8Decode r2).map
            (Char.ofNat ((b - 0xE0) * 0x1000 + (c1 - 0x80) * 0x40 + (c2 - 0x80)) :: ·)
        else none
      | _ => none
    else if b ≤ 0xF4 then
      match rest with
      | c1 :: c2 :: c3 :: r2 =>
        if (if b = 0xF0 then 0x90 ≤ c1 && c1 ≤ 0xBF
            else if b = 0xF4 then 0x80 ≤ c1 && c1 ≤ 0x8F
            else contB c1) && contB c2 && contB c3 then
          (utf8Decode r2).map
            (Char.ofNat ((b - 0xF0) * 0x40000 + (c1 - 0x80) * 0x1000 +
              (c2 - 0x80) * 0x40 + (c3 - 0x80)) :: ·)
        else none
      | _ => none
    else none

def hexDigit (n : Nat) : Char :=
  if n < 10 then Char.ofNat ('0'.toNat + n) else Char.ofNat ('a'.toNat + n - 10)

/-- Escaping of one byte inside Python's `repr` of a bytes object, given the
chosen quote character. -/
def reprByte (q : Char) (n : Nat) : Str :=
  if n = 0x5C then ['\\', '\\']
  else if n = q.toNat then ['\\', q]
  else if n = 9 then ['\\', 't']
  else if n = 10 then ['\\', 'n']
  else if n = 13 then ['\\', 'r']
  else if 0x20 ≤ n && n ≤ 0x7E then [Char.ofNat n]
  else ['\\', 'x', hexDigit (n / 16), hexDigit (n % 16)]

/-- Python `str(b)` for a bytes object `b`: its `repr`, e.g. `b'\xff'`.
Single quotes unless the bytes contain a single quote and no double quote.
-/
def pyReprBytes (b : List Nat) : Str :=
  let q : Char := if b.contains 0x27 && !(b.contains 0x22) then '"' else '\''
  'b' :: q :: b.flatMap (reprByte q) ++ [q]

/-- Python `str.strip('/')`. -/
def stripSlash (l : Str) : Str :=
  ((l.dropWhile (· == '/')).reverse.dropWhile (· == '/')).reverse

/-- `key.lower().strip('/')`. -/
def normKey (k : Str) : Str := stripSlash (toLowerL k)

def metaKeys : List Str :=
  ["/Title".data, "/Author".data, "/CreationDate".data]

/-- Normalisation of one raw metadata value (pdf_processor.py lines
117-123): decode byte values as UTF-8, falling back to `str(value)`. -/
def normValue : RawValue → Str
  | RawValue.strV s => s
  | RawValue.bytesV b =>
    match utf8Decode b with
    | some s => s
    | none => pyReprBytes b

/-- The three entries the metadata loop stores for a non-empty raw
mapping, written out explicitly (used to characterise `getMetadata`). -/
def metaEntries (info : List (Str × RawValue)) : AList :=
  [("title".data, normValue ((lookupL info "/Title".data).getD (RawValue.strV []))),
   ("author".data, normValue ((lookupL info "/Author".data).getD (RawValue.strV []))),
   ("creationdate".data, normValue ((lookupL info "/CreationDate".data).getD (RawValue.strV [])))]

/-- `get_metadata` (pdf_processor.py lines 110-134).  `info` is the raw
metadata mapping (`none` models a missing or empty `reader.metadata`);
`firstPage` is the text of page one (`none` models an exception while
extracting it, which the code swallows). -/
def getMetadata (info : Option (List (Str × RawValue)))
    (firstPage : Option Str) : AList :=
  let m : AList := match info with
    | none => []
    | some pdfInfo =>
      if pdfInfo = [] then []
      else
        metaKeys.foldl (fun m k =>
          insertA m (normKey k)
            (normValue ((lookupL pdfInfo k).getD (RawValue.strV [])))) []
  if lookupL m "title".data = none ∨ lookupL m "title".data = some [] then
    match firstPage with
    | none => m
    | some t =>
      match ((splitLines t).map stripL).filter (· ≠ []) with
      | [] => m
      | h :: _ => insertA m "title".data h
  else m

/-! ### Declarative reading of the primary header pattern

These predicates state, in plain language-of-sets terms, which strings the
regex `^(?:\d+\.?\d*\s*|[IVXivx]+\.?\s*)?(tok...)(?:\s*:|$)` accepts; the
pattern rule is proved equivalent to them below. -/

def keysOf {β : Type} (m : List (Str × β)) : List Str := m.map Prod.fst

/-- The digit alternative of the optional ordinal marker:
digits, an optional dot, more digits, then optional whitespace. -/
def DigitShape (p : Str) : Prop :=
  ∃ a b c d : Str, p = a ++ b ++ c ++ d ∧ a ≠ [] ∧ (∀ x ∈ a, isDigitC x) ∧
    (b = [] ∨ b = ['.']) ∧ (∀ x ∈ c, isDigitC x) ∧ (∀ x ∈ d, isPySpace x)

/-- The Roman alternative of the optional ordinal marker (on the
lower-cased line): letters i/v/x, an optional dot, then optional
whitespace. -/
def RomanShape (p : Str) : Prop :=
  ∃ a b d : Str, p = a ++ b ++ d ∧ a ≠ [] ∧ (∀ x ∈ a, isRomanLower x) ∧
    (b = [] ∨ b = ['.']) ∧ (∀ x ∈ d, isPySpace x)

/-- The whole optional ordinal marker: absent, digit-shaped or
Roman-shaped. -/
def OrdShape (p : Str) : Prop := p = [] ∨ DigitShape p ∨ RomanShape p

/-- What may follow the vocabulary token: end of line, or optional
whitespace, a colon and then anything. -/
def ColonSuffix (r : Str) : Prop :=
  r = [] ∨ ∃ s r2 : Str, r = s ++ ':' :: r2 ∧ ∀ x ∈ s, isPySpace x

/-- Declarative acceptance of a lower-cased trimmed line by the pattern
rule. -/
def HeaderShape (t : Str) : Prop :=
  ∃ p tok r : Str, t = p ++ tok ++ r ∧ tok ∈ commonSections ∧
    OrdShape p ∧ ColonSuffix r

/-! ## Lemmas about the dict model -/

theorem mem_insertA {β : Type} (m : List (Str × β)) (k : Str) (v : β)
    (p : Str × β) (h : p ∈ insertA m k v) : p ∈ m ∨ p = (k, v) := by
  induction m with
  | nil => simpa [insertA] using h
  | cons q t ih =>
    obtain ⟨k0, v0⟩ := q
    by_cases hk : k0 = k
    · simp only [insertA, if_pos hk] at h
      rcases List.mem_cons.mp h with h1 | h1
      · exact Or.inr h1
      · exact Or.inl (List.mem_cons_of_mem _ h1)
    · simp only [insertA, if_neg hk] at h
      rcases List.mem_cons.mp h with h1 | h1
      · exact Or.inl (h1 ▸ List.mem_cons_self _ _)
      · rcases ih h1 with h2 | h2
        · exact Or.inl (List.mem_cons_of_mem _ h2)
        · exact Or.inr h2

theorem lookupL_insertA_self {β : Type} (m : List (Str × β)) (k : Str)
    (v : β) : lookupL (insertA m k v) k = some v := by
  induction m with
  | nil => simp [insertA, lookupL]
  | cons q t ih =>
    obtain ⟨k0, v0⟩ := q
    by_cases hk : k0 = k
    · simp [insertA, hk, lookupL]
    · simp [insertA, hk, lookupL, ih]

theorem lookupL_insertA_ne {β : Type} (m : List (Str × β)) (k k2 : Str)
    (v : β) (h : k2 ≠ k) : lookupL (insertA m k v) k2 = lookupL m k2 := by
  induction m with
  | nil => simp [insertA, lookupL, Ne.symm h]
  | cons q t ih =>
    obtain ⟨k0, v0⟩ := q
    by_cases hk : k0 = k
    · subst hk
      simp [insertA, lookupL, Ne.symm h]
    · simp [insertA, hk, lookupL, ih]

theorem insertA_of_not_mem_keys {β : Type} (m : List (Str × β)) (k : Str)
    (v : β) (h : k ∉ keysOf m) : insertA m k v = m ++ [(k, v)] := by
  induction m with
  | nil => simp [insertA]
  | cons q t ih =>
    obtain ⟨k0, v0⟩ := q
    simp only [keysOf, List.map_cons, List.mem_cons] at h
    push_neg at h
    show (if k0 = k then (k, v) :: t else (k0, v0) :: insertA t k v) = _
    rw [if_neg (Ne.symm h.1), ih h.2]
    rfl

theorem length_insertA_pos {β : Type} (m : List (Str × β)) (k : Str)
    (v : β) : 1 ≤ (insertA m k v).length := by
  cases m with
  | nil => simp [insertA]
  | cons q t =>
    obtain ⟨k0, v0⟩ := q
    show 1 ≤ (if k0 = k then (k, v) :: t else (k0, v0) :: insertA t k v).length
    by_cases hk : k0 = k
    · rw [if_pos hk]; simp
    · rw [if_neg hk]; simp

theorem length_insertA_ge {β : Type} (m : List (Str × β)) (k : Str)
    (v : β) : m.length ≤ (insertA m k v).length := by
  induction m with
  | nil => simp [insertA]
  | cons q t ih =>
    obtain ⟨k0, v0⟩ := q
    show _ ≤ (if k0 = k then (k, v) :: t else (k0, v0) :: insertA t k v).length
    by_cases hk : k0 = k
    · rw [if_pos hk]; simp
    · rw [if_neg hk]
      simpa using Nat.succ_le_succ ih

theorem mem_keys_insertA_self {β : Type} (m : List (Str × β)) (k : Str)
    (v : β) : k ∈ keysOf (insertA m k v) := by
  induction m with
  | nil => simp [insertA, keysOf]
  | cons q t ih =>
    obtain ⟨k0, v0⟩ := q
    show k ∈ keysOf (if k0 = k then (k, v) :: t else (k0, v0) :: insertA t k v)
    by_cases hk : k0 = k
    · rw [if_pos hk]
      exact List.mem_cons_self _ _
    · rw [if_neg hk]
      exact List.mem_cons_of_mem _ ih

theorem mem_keys_insertA_of_mem {β : Type} (m : List (Str × β))
    (k k2 : Str) (v : β) (h : k2 ∈ keysOf m) :
    k2 ∈ keysOf (insertA m k v) := by
  induction m with
  | nil => simp [keysOf] at h
  | cons q t ih =>
    obtain ⟨k0, v0⟩ := q
    simp only [keysOf, List.map_cons, List.mem_cons] at h
    show k2 ∈ keysOf (if k0 = k then (k, v) :: t else (k0, v0) :: insertA t k v)
    by_cases hk : k0 = k
    · rw [if_pos hk]
      show k2 ∈ k :: List.map Prod.fst t
      rcases h with h | h
      · exact List.mem_cons.mpr (Or.inl (hk ▸ h))
      · exact List.mem_cons_of_mem _ h
    · rw [if_neg hk]
      show k2 ∈ k0 :: keysOf (insertA t k v)
      rcases h with h | h
      · exact List.mem_cons.mpr (Or.inl h)
      · exact List.mem_cons_of_mem _ (ih h)

/-! ## Lemmas about line splitting and joining -/

theorem splitLines_ne_nil (t : Str) : splitLines t ≠ [] := by
  cases t with
  | nil => simp [splitLines]
  | cons c r =>
    by_cases hc : c = '\n'
    · simp [splitLines, hc]
    · simp only [splitLines, if_neg hc]
      rcases h : splitLines r with _ | ⟨h1, t1⟩ <;> simp

theorem joinNL_cons_cons (a b : Str) (ls : List Str) :
    joinNL (a :: b :: ls) = a ++ '\n' :: joinNL (b :: ls) := rfl

theorem joinNL_splitLines (t : Str) : joinNL (splitLines t) = t := by
  induction t with
  | nil => rfl
  | cons c r ih =>
    rcases h : splitLines r with _ | ⟨h1, t1⟩
    · exact absurd h (splitLines_ne_nil r)
    · rw [h] at ih
      by_cases hc : c = '\n'
      · subst hc
        have e1 : splitLines ('\n' :: r) = [] :: h1 :: t1 := by
          simp [splitLines, h]
        rw [e1, joinNL_cons_cons, ih]
        simp
      · have e1 : splitLines (c :: r) = (c :: h1) :: t1 := by
          simp [splitLines, hc, h]
        rw [e1]
        cases t1 with
        | nil =>
          simp only [joinNL] at ih ⊢
          rw [ih]
        | cons h2 t2 =>
          rw [joinNL_cons_cons] at ih ⊢
          rw [List.cons_append, ih]

theorem joinNL_append (xs ys : List Str) (hx : xs ≠ []) (hy : ys ≠ []) :
    joinNL (xs ++ ys) = joinNL xs ++ '\n' :: joinNL ys := by
  induction xs with
  | nil => exact absurd rfl hx
  | cons a t ih =>
    cases t with
    | nil =>
      cases ys with
      | nil => exact absurd rfl hy
      | cons b u => simp [joinNL_cons_cons, joinNL]
    | cons a2 t2 =>
      have : joinNL ((a2 :: t2) ++ ys) = joinNL (a2 :: t2) ++ '\n' :: joinNL ys :=
        ih (by simp)
      cases h2 : (a2 :: t2) ++ ys with
      | nil => simp at h2
      | cons z zs =>
        rw [List.cons_append, joinNL_cons_cons]
        rw [h2] at this ⊢
        rcases List.cons_eq_cons.mp h2 with ⟨rfl, rfl⟩
        rw [joinNL_cons_cons, this, List.append_assoc]
        simp

/-! ## Structure of the primary pass -/

theorem primaryGo_eq_foldl (ls : List Str) (cur : Str) (acc : List Str)
    (s : AList) :
    primaryGo ls cur acc s = (blocksGo ls cur acc).foldl storeBlock s := by
  induction ls generalizing cur acc s with
  | nil => rfl
  | cons l ls ih =>
    show primaryGo (l :: ls) cur acc s = _
    rcases h : isSectionHeader l with _ | tok
    · simp only [primaryGo, blocksGo, h]
      exact ih cur (acc ++ [l]) s
    · simp only [primaryGo, blocksGo, h, List.foldl_cons]
      exact ih tok [] (storeBlock s (cur, acc))

theorem blocksGo_flatMap (ls : List Str) (cur : Str) (acc : List Str) :
    (blocksGo ls cur acc).flatMap Prod.snd =
      acc ++ ls.filter (fun l => (isSectionHeader l).isNone) := by
  induction ls generalizing cur acc with
  | nil => simp [blocksGo]
  | cons l ls ih =>
    rcases h : isSectionHeader l with _ | tok
    · simp only [blocksGo, h, List.filter_cons, Option.isNone_none,
        if_pos (by rfl : (true = true))]
      rw [ih]
      simp
    · simp only [blocksGo, h, List.filter_cons]
      rw [List.flatMap_cons, ih]
      simp

theorem foldl_storeBlock_length_ge (bs : List (Str × List Str)) (s : AList) :
    s.length ≤ (bs.foldl storeBlock s).length := by
  induction bs generalizing s with
  | nil => exact Nat.le_refl _
  | cons b bs ih =>
    rw [List.foldl_cons]
    refine Nat.le_trans ?_ (ih (storeBlock s b))
    unfold storeBlock
    by_cases hb : b.2 = []
    · rw [if_pos hb]
    · rw [if_neg hb]
      exact length_insertA_ge s b.1 _

theorem foldl_storeBlock_ne_nil (bs : List (Str × List Str)) (s : AList)
    (h : ∃ b ∈ bs, b.2 ≠ []) : bs.foldl storeBlock s ≠ [] := by
  induction bs generalizing s with
  | nil => simp at h
  | cons b0 bs ih =>
    rw [List.foldl_cons]
    obtain ⟨b, hb, hne⟩ := h
    rcases List.mem_cons.mp hb with h1 | h1
    · subst h1
      have h2 : 1 ≤ (storeBlock s b).length := by
        unfold storeBlock
        rw [if_neg hne]
        exact length_insertA_pos s b.1 _
      have h3 := foldl_storeBlock_length_ge bs (storeBlock s b)
      intro hnil
      rw [hnil] at h3
      simp only [List.length_nil] at h3
      omega
    · exact ih (storeBlock s b0) ⟨b, h1, hne⟩

theorem foldl_storeBlock_append (bs : List (Str × List Str)) (s : AList)
    (entries : AList)
    (he : entries = bs.filterMap (fun b =>
      if b.2 = [] then none else some (b.1, stripL (joinNL b.2))))
    (hnodup : (keysOf entries).Nodup)
    (hdis : ∀ k ∈ keysOf entries, k ∉ keysOf s) :
    bs.foldl storeBlock s = s ++ entries := by
  induction bs generalizing s entries with
  | nil => simp [he]
  | cons b bs ih =>
    by_cases hb : b.2 = []
    · rw [List.foldl_cons]
      have hs : storeBlock s b = s := by unfold storeBlock; rw [if_pos hb]
      rw [hs]
      exact ih s entries (by simpa [List.filterMap_cons, hb] using he) hnodup hdis
    · rw [List.foldl_cons]
      have hs : storeBlock s b = s ++ [(b.1, stripL (joinNL b.2))] := by
        unfold storeBlock
        rw [if_neg hb]
        refine insertA_of_not_mem_keys s b.1 _ ?_
        refine hdis b.1 ?_
        rw [he]
        simp [List.filterMap_cons, hb, keysOf]
      have he2 : entries = (b.1, stripL (joinNL b.2)) ::
          bs.filterMap (fun b =>
            if b.2 = [] then none else some (b.1, stripL (joinNL b.2))) := by
        simpa [List.filterMap_cons, hb] using he
      rw [hs]
      rw [ih (s ++ [(b.1, stripL (joinNL b.2))])
        (bs.filterMap (fun b =>
          if b.2 = [] then none else some (b.1, stripL (joinNL b.2)))) rfl
        ?_ ?_]
      · rw [he2, List.append_assoc]
        rfl
      · have := hnodup
        rw [he2] at this
        simp only [keysOf, List.map_cons, List.nodup_cons] at this
        exact this.2
      · intro k hk
        simp only [keysOf, List.map_append, List.mem_append] at *
        rw [he2] at hnodup hdis
        push_neg
        constructor
        · intro hks
          exact (hdis k (by
            simp only [keysOf, List.map_cons, List.mem_cons]
            exact Or.inr hk)) (by simpa [keysOf] using hks)
        · simp only [keysOf, List.map_cons, List.nodup_cons] at hnodup
          intro hsing
          rcases List.mem_singleton.mp hsing with rfl
          exact hnodup.1 hk

theorem blocksGo_all_none (ls : List Str) (cur : Str) (acc : List Str)
    (h : ∀ l ∈ ls, isSectionHeader l = none) :
    blocksGo ls cur acc = [(cur, acc ++ ls)] := by
  induction ls generalizing acc with
  | nil => simp [blocksGo]
  | cons l ls ih =>
    have hl : isSectionHeader l = none := h l (List.mem_cons_self _ _)
    simp only [blocksGo, hl]
    rw [ih (acc ++ [l]) (fun x hx => h x (List.mem_cons_of_mem _ hx))]
    simp

theorem filterMap_blocks_of_flat_nil (bs : List (Str × List Str))
    (h : bs.flatMap Prod.snd = []) :
    bs.filterMap (fun b => if b.2 = [] then none else some (joinNL b.2)) = [] := by
  induction bs with
  | nil => rfl
  | cons b bs ih =>
    rw [List.flatMap_cons] at h
    rcases List.append_eq_nil.mp h with ⟨h1, h2⟩
    simp only [List.filterMap_cons, h1]
    exact ih h2

theorem flat_nil_of_filterMap_blocks (bs : List (Str × List Str))
    (h : bs.filterMap (fun b => if b.2 = [] then none else some (joinNL b.2)) = []) :
    bs.flatMap Prod.snd = [] := by
  induction bs with
  | nil => rfl
  | cons b bs ih =>
    by_cases hb : b.2 = []
    · simp only [List.filterMap_cons, hb, if_pos rfl] at h
      rw [List.flatMap_cons, hb, List.nil_append]
      exact ih h
    · simp only [List.filterMap_cons, if_neg hb] at h
      exact absurd h (by simp)

/-- Concatenating the stored blocks' untrimmed bodies agrees with
concatenating all block contents: blocks with no content lines vanish on
both sides. -/
theorem joinNL_filterMap_blocks (bs : List (Str × List Str)) :
    joinNL (bs.filterMap (fun b => if b.2 = [] then none else some (joinNL b.2))) =
      joinNL (bs.flatMap Prod.snd) := by
  induction bs with
  | nil => rfl
  | cons b bs ih =>
    by_cases hb : b.2 = []
    · simp only [List.filterMap_cons, hb, if_pos rfl]
      rw [List.flatMap_cons, hb, List.nil_append]
      exact ih
    · simp only [List.filterMap_cons, if_neg hb]
      rw [List.flatMap_cons]
      rcases hflat : bs.flatMap Prod.snd with _ | ⟨f, fs⟩
      · rw [filterMap_blocks_of_flat_nil bs hflat]
        rw [List.append_nil]
        rfl
      · have hflatne : bs.flatMap Prod.snd ≠ [] := by rw [hflat]; simp
        rcases hrest : bs.filterMap
            (fun b => if b.2 = [] then none else some (joinNL b.2)) with _ | ⟨e, es⟩
        · exact absurd (flat_nil_of_filterMap_blocks bs hrest) hflatne
        · rw [hrest] at ih
          rw [hrest, joinNL_cons_cons, ih, ← hflat,
            joinNL_append b.2 (bs.flatMap Prod.snd) hb hflatne]


/-! ## Helper lemmas for the claim theorems -/

theorem identifySections_eq (t : Str) (s0 : AList) :
    identifySections t s0 =
      if (primaryPass (splitLines t) s0).length ≤ 2 then
        (if potentials (splitLines t) = [] then primaryPass (splitLines t) s0
         else if (primaryPass (splitLines t) s0).length <
             (buildGo (splitLines t) (potentials (splitLines t)) []).length then
           buildGo (splitLines t) (potentials (splitLines t)) []
         else primaryPass (splitLines t) s0)
      else primaryPass (splitLines t) s0 := rfl

theorem exists_of_mem_keys {β : Type} (m : List (Str × β)) (k : Str)
    (h : k ∈ keysOf m) : ∃ v, (k, v) ∈ m := by
  rcases List.mem_map.mp h with ⟨p, hp, hk⟩
  obtain ⟨k1, v⟩ := p
  rcases hk with rfl
  exact ⟨v, hp⟩

theorem mem_keys_buildGo_of_mem (lines : List Str) (pot : List (Nat × Str))
    (s : AList) (k : Str) (h : k ∈ keysOf s) :
    k ∈ keysOf (buildGo lines pot s) := by
  induction pot generalizing s with
  | nil => exact h
  | cons p rest ih =>
    obtain ⟨ln, hd⟩ := p
    exact ih _ (mem_keys_insertA_of_mem _ _ _ _ h)

theorem mem_keys_buildGo (lines : List Str) (pot : List (Nat × Str))
    (s : AList) (i : Nat) (hdr : Str) (h : (i, hdr) ∈ pot) :
    cleanHeader (toLowerL hdr) ∈ keysOf (buildGo lines pot s) := by
  induction pot generalizing s with
  | nil => exact absurd h (List.not_mem_nil _)
  | cons p rest ih =>
    obtain ⟨ln, hd⟩ := p
    rcases List.mem_cons.mp h with h1 | h1
    · have h3 : hdr = hd := congrArg Prod.snd h1
      subst h3
      exact mem_keys_buildGo_of_mem lines rest _ _ (mem_keys_insertA_self _ _ _)
    · exact ih _ h1

theorem countWhile_cons (p : Char → Bool) (c : Char) (l : Str) :
    countWhile p (c :: l) = if p c then countWhile p l + 1 else 0 := by
  by_cases h : p c <;> simp [countWhile, List.takeWhile_cons, h]

theorem filterMap_congr_mem {α β : Type} (l : List α) (f g : α → Option β)
    (h : ∀ x ∈ l, f x = g x) : l.filterMap f = l.filterMap g := by
  induction l with
  | nil => rfl
  | cons a t ih =>
    rw [List.filterMap_cons, List.filterMap_cons,
      h a (List.mem_cons_self _ _), ih (fun x hx => h x (List.mem_cons_of_mem _ hx))]

/-! ## Claim theorems -/

/-- Claim C1, counterexample: for the input
`"Introduction\nA\nIntroduction\nB"`, the two header lines resolve to the
same section name, so the line `"A"` is stored and then overwritten; it
appears in no section body, and concatenating the bodies (headers
excluded) does not reconstruct the non-header line sequence. -/
theorem claim_C1_counterexample :
    identifySections "Introduction\nA\nIntroduction\nB".data [] =
      [("introduction".data, "B".data)] ∧
    joinNL ((identifySections "Introduction\nA\nIntroduction\nB".data []).map
      Prod.snd) ≠
      joinNL ((splitLines "Introduction\nA\nIntroduction\nB".data).filter
        (fun l => (isSectionHeader l).isNone)) := by
  decide

/-- Claim C1, amended: the reconstruction property holds provided the
primary pass yields more than 2 entries (so the fallback does not replace
the result), no two stored blocks carry the same section name (otherwise
the later body overwrites the earlier one), and no block body is altered by
trimming.  Then concatenating the section bodies in document order equals
the concatenation of the non-header input lines. -/
theorem claim_C1_amended (t : Str)
    (hnod : (keysOf (blockEntries t)).Nodup)
    (hclean : ∀ b ∈ blocksGo (splitLines t) "unknown".data [],
      b.2 ≠ [] → stripL (joinNL b.2) = joinNL b.2)
    (hlen : 2 < (primaryPass (splitLines t) []).length) :
    joinNL ((identifySections t []).map Prod.snd) =
      joinNL ((splitLines t).filter (fun l => (isSectionHeader l).isNone)) := by
  have e0 : identifySections t [] = primaryPass (splitLines t) [] := by
    rw [identifySections_eq, if_neg (by omega)]
  have e1 : primaryPass (splitLines t) [] = blockEntries t := by
    unfold primaryPass blockEntries
    rw [primaryGo_eq_foldl]
    exact foldl_storeBlock_append _ [] _ rfl hnod
      (by intro k hk; simp [keysOf])
  rw [e0, e1]
  unfold blockEntries
  rw [List.map_filterMap]
  rw [filterMap_congr_mem _ _
    (fun b => if b.2 = [] then none else some (joinNL b.2))
    (by
      intro b hb
      by_cases h2 : b.2 = []
      · simp [h2]
      · simp [h2, hclean b hb h2])]
  rw [joinNL_filterMap_blocks, blocksGo_flatMap]
  rfl

/-- Claim C1, amended witness at a concrete three-section text. -/
theorem claim_C1_amended_witness :
    (2 < (primaryPass (splitLines "Abstract\na\nIntroduction\nb\nConclusion\nc".data) []).length) ∧
    joinNL ((identifySections "Abstract\na\nIntroduction\nb\nConclusion\nc".data []).map Prod.snd) =
      joinNL ((splitLines "Abstract\na\nIntroduction\nb\nConclusion\nc".data).filter
        (fun l => (isSectionHeader l).isNone)) :=
  ⟨by decide,
   claim_C1_amended "Abstract\na\nIntroduction\nb\nConclusion\nc".data
     (by decide) (by decide) (by decide)⟩

/-- Claim C2, counterexample: the non-empty input `"Introduction"` (a lone
header line) produces an empty SectionMap — every line is consumed as a
header, nothing is ever stored, and the fallback finds no candidates. -/
theorem claim_C2_counterexample :
    "Introduction".data ≠ [] ∧
    identifySections "Introduction".data [] = [] := by
  decide

/-- Claim C2, amended: on a fresh processor the result has at least one key
whenever some input line is not classified as a header; and when no line is
recognized by either pass (no primary header, no fallback candidate), the
result is exactly the single key `unknown` mapped to the whole input,
trimmed. -/
theorem claim_C2_amended (t : Str) :
    ((∃ l ∈ splitLines t, isSectionHeader l = none) →
      identifySections t [] ≠ []) ∧
    ((∀ l ∈ splitLines t, isSectionHeader l = none) →
      potentials (splitLines t) = [] →
      identifySections t [] = [("unknown".data, stripL t)]) := by
  constructor
  · rintro ⟨l, hl, hnone⟩
    have hmem : l ∈ (blocksGo (splitLines t) "unknown".data []).flatMap Prod.snd := by
      rw [blocksGo_flatMap, List.nil_append]
      exact List.mem_filter.mpr ⟨hl, by rw [hnone]; rfl⟩
    have hblock : ∃ b ∈ blocksGo (splitLines t) "unknown".data [], b.2 ≠ [] := by
      rcases List.mem_flatMap.mp hmem with ⟨b, hb, hlb⟩
      exact ⟨b, hb, by
        intro hc
        rw [hc] at hlb
        exact List.not_mem_nil l hlb⟩
    have hne : primaryPass (splitLines t) [] ≠ [] := by
      unfold primaryPass
      rw [primaryGo_eq_foldl]
      exact foldl_storeBlock_ne_nil _ _ hblock
    rw [identifySections_eq]
    by_cases h2 : (primaryPass (splitLines t) []).length ≤ 2
    · rw [if_pos h2]
      by_cases hpot : potentials (splitLines t) = []
      · rw [if_pos hpot]; exact hne
      · rw [if_neg hpot]
        by_cases hlt : (primaryPass (splitLines t) []).length <
            (buildGo (splitLines t) (potentials (splitLines t)) []).length
        · rw [if_pos hlt]
          intro hc
          rw [hc] at hlt
          have h1 : 1 ≤ (primaryPass (splitLines t) []).length := by
            rcases hp : primaryPass (splitLines t) [] with _ | ⟨q, qs⟩
            · exact absurd hp hne
            · simp
          simp only [List.length_nil] at hlt
          omega
        · rw [if_neg hlt]; exact hne
    · rw [if_neg h2]; exact hne
  · intro hall hpot
    have hblocks : blocksGo (splitLines t) "unknown".data [] =
        [("unknown".data, splitLines t)] := by
      have := blocksGo_all_none (splitLines t) "unknown".data [] hall
      simpa using this
    have hprim : primaryPass (splitLines t) [] =
        [("unknown".data, stripL t)] := by
      unfold primaryPass
      rw [primaryGo_eq_foldl, hblocks, List.foldl_cons, List.foldl_nil]
      unfold storeBlock
      rw [if_neg (splitLines_ne_nil t)]
      rw [joinNL_splitLines]
      rfl
    rw [identifySections_eq, hprim]
    rw [if_pos (by simp), if_pos hpot]

/-- Claim C2, amended witness: the headerless input `"Hello"`. -/
theorem claim_C2_amended_witness :
    identifySections "Hello".data [] ≠ [] ∧
    identifySections "Hello".data [] = [("unknown".data, stripL "Hello".data)] :=
  ⟨(claim_C2_amended "Hello".data).1 (by decide),
   (claim_C2_amended "Hello".data).2 (by decide) (by decide)⟩

/-- Claim C3: on a fresh processor, the returned SectionMap is exactly the
fallback pass's output when the primary pass stored at most 2 entries, the
fallback found candidates, and the fallback map is strictly larger;
otherwise it is exactly the primary result — never a merge. -/
theorem claim_C3 (t : Str) :
    identifySections t [] =
      (if (primaryPass (splitLines t) []).length ≤ 2 ∧
          potentials (splitLines t) ≠ [] ∧
          (primaryPass (splitLines t) []).length < (altSections t).length then
        altSections t
      else primaryPass (splitLines t) []) := by
  rw [identifySections_eq]
  unfold altSections
  split_ifs <;> first | rfl | tauto

/-- Claim C4: the missing comma in the source vocabulary list produces the
single merged token `experimentsresults`; neither `experiments` nor
`results` is a standalone token, so the pattern rule rejects the lines
`"Results"` and `"Experiments:"` but accepts `"experimentsresults"`. -/
theorem claim_C4 :
    "experimentsresults".data ∈ commonSections ∧
    "experiments".data ∉ commonSections ∧
    "results".data ∉ commonSections ∧
    matchPattern (toLowerL (stripL "Results".data)) = none ∧
    matchPattern (toLowerL (stripL "Experiments:".data)) = none ∧
    matchPattern (toLowerL (stripL "experimentsresults".data)) =
      some "experimentsresults".data := by
  decide

/-- Claim C5, counterexample: the fallback pass strips the leading letter
of an ordinary word that begins with i, v or x — the candidate header
`"INTRODUCTION"` yields the section name `"ntroduction"`, not
`"introduction"`; end-to-end, a document whose fallback output wins gets
the mangled keys `"ntroduction"` and `"alidation"`. -/
theorem claim_C5_counterexample :
    altSections "INTRODUCTION\n\nhello".data =
      [("ntroduction".data, "hello".data)] ∧
    lookupL (altSections "INTRODUCTION\n\nhello".data) "introduction".data =
      none ∧
    identifySections "INTRODUCTION\n\nalpha\nVALIDATION\n\nbeta".data [] =
      [("ntroduction".data, "alpha".data), ("alidation".data, "beta".data)] := by
  decide

/-- Claim C5, amended: every candidate header contributes the key
`cleanHeader` of its lower-cased text to the fallback output, where
`cleanHeader` removes a leading maximal run of digits — or, failing that,
of the letters i, v, x — plus an optional dot and following whitespace,
even when those letters begin an ordinary word; when the header's first
character is neither a digit nor i/v/x, the name is the full header text
lower-cased with no characters removed. -/
theorem claim_C5_amended (t : Str) (i : Nat) (hdr : Str) (c : Char)
    (cs : Str)
    (hmem : (i, hdr) ∈ potentials (splitLines t))
    (hcons : toLowerL hdr = c :: cs)
    (hdig : isDigitC c = false)
    (hrom : isRomanLower c = false) :
    (∃ v, (cleanHeader (toLowerL hdr), v) ∈ altSections t) ∧
    cleanHeader (toLowerL hdr) = toLowerL hdr := by
  constructor
  · exact exists_of_mem_keys _ _
      (mem_keys_buildGo (splitLines t) (potentials (splitLines t)) [] i hdr hmem)
  · rw [hcons]
    unfold cleanHeader
    rw [countWhile_cons, if_neg (by rw [hdig]; simp)]
    rw [countWhile_cons, if_neg (by rw [hrom]; simp)]

/-- Claim C5, amended witness: the candidate `"ABSTRACT"` keeps its full
lower-cased name. -/
theorem claim_C5_amended_witness :
    (∃ v, (cleanHeader (toLowerL "ABSTRACT".data), v) ∈
      altSections "ABSTRACT\n\nbody".data) ∧
    cleanHeader (toLowerL "ABSTRACT".data) = toLowerL "ABSTRACT".data :=
  claim_C5_amended "ABSTRACT\n\nbody".data 0 "ABSTRACT".data 'a'
    "bstract".data (by decide) (by decide) (by decide) (by decide)

/-- Claim C9: `identify_sections` accumulates into the processor's stored
section map, so it is not idempotent: for this text the first call returns
the fallback output, while a second call on the same processor merges the
primary pass's entry into it (all first-call entries persist) and, now
holding more than 2 entries, skips the fallback. -/
theorem claim_C9 :
    ∃ t : Str,
      identifySections t [] ≠ identifySections t (identifySections t []) ∧
      identifySections t (identifySections t []) =
        primaryPass (splitLines t) (identifySections t []) ∧
      2 < (primaryPass (splitLines t) (identifySections t [])).length ∧
      ∀ p ∈ identifySections t [],
        p ∈ identifySections t (identifySections t []) :=
  ⟨"Introduction\nintro body\nAAA BBB\n\nalpha\nCCC DDD\n\nbeta".data,
   by decide⟩

/-- Claim C10: in the primary pass, two header lines resolving to the same
vocabulary token keep only the body accumulated after the later header (the
earlier body is overwritten at its original position), and a header
immediately followed by another header leaves no entry at all: here
`"Abstract"` gets no entry and `"introduction"` maps to the trimmed later
body only, for arbitrary non-header body lines `a` and `b`. -/
theorem claim_C10 (a b : Str) (ha : isSectionHeader a = none)
    (hb : isSectionHeader b = none) :
    primaryPass
      ["Abstract".data, "Introduction".data, a, "Introduction".data, b] [] =
      [("introduction".data, stripL b)] := by
  have hA : isSectionHeader "Abstract".data = some "abstract".data := by decide
  have hI : isSectionHeader "Introduction".data =
      some "introduction".data := by decide
  simp only [primaryPass, primaryGo, hA, hI, ha, hb, joinNL, insertA,
    List.nil_append]
  simp

/-- Claim C10, witness at the body lines `"x"` and `"y"`. -/
theorem claim_C10_witness :
    isSectionHeader "x".data = none ∧
    primaryPass
      ["Abstract".data, "Introduction".data, "x".data, "Introduction".data,
        "y".data] [] = [("introduction".data, stripL "y".data)] :=
  ⟨by decide, claim_C10 "x".data "y".data (by decide) (by decide)⟩

/-! ## Summarizer lemmas and claim C7 -/

theorem mem_summaryStep (g : Str → Str) (acc : AList) (q p : Str × Str)
    (h : p ∈ summaryStep g acc q) :
    p ∈ acc ∨ (toLowerL p.1 ∉ skippedNames ∧ p.2 ≠ []) := by
  unfold summaryStep at h
  by_cases h1 : toLowerL q.1 ∉ skippedNames
  · rw [if_pos h1] at h
    by_cases h2 : summarizeSection g q.2 q.1 ≠ []
    · rw [if_pos h2] at h
      rcases mem_insertA _ _ _ _ h with h3 | h3
      · exact Or.inl h3
      · subst h3
        exact Or.inr ⟨h1, h2⟩
    · rw [if_neg h2] at h
      exact Or.inl h
  · rw [if_neg h1] at h
    exact Or.inl h

theorem foldl_summaryStep_inv (g : Str → Str) (l : List (Str × Str))
    (acc : AList)
    (hacc : ∀ p ∈ acc, toLowerL p.1 ∉ skippedNames ∧ p.2 ≠ []) :
    ∀ p ∈ l.foldl (summaryStep g) acc,
      toLowerL p.1 ∉ skippedNames ∧ p.2 ≠ [] := by
  induction l generalizing acc with
  | nil => exact hacc
  | cons q l ih =>
    rw [List.foldl_cons]
    refine ih (summaryStep g acc q) ?_
    intro p hp
    rcases mem_summaryStep g acc q p hp with h | h
    · exact hacc p h
    · exact h

/-- Claim C7: for every backend behaviour, every input SectionMap and every
full text, `generate_full_summary` stores no per-section key whose
lower-cased name is `unknown`, `references` or `acknowledgments`, stores no
empty per-section summary, and always carries the key `overview`
(whose value may be empty). -/
theorem claim_C7 (g : Str → Str) (sections : AList) (fullText : Str) :
    (lookupL (generateFullSummary g sections fullText) "overview".data).isSome ∧
    (∀ p ∈ generateFullSummary g sections fullText,
      toLowerL p.1 ∉ skippedNames) ∧
    (∀ p ∈ generateFullSummary g sections fullText,
      p.1 ≠ "overview".data → p.2 ≠ []) := by
  have hinv := foldl_summaryStep_inv g sections []
    (by intro p hp; exact absurd hp (List.not_mem_nil p))
  unfold generateFullSummary
  refine ⟨?_, ?_, ?_⟩
  · rw [lookupL_insertA_self]
    rfl
  · intro p hp
    rcases mem_insertA _ _ _ _ hp with h | h
    · exact (hinv p h).1
    · subst h
      show toLowerL "overview".data ∉ skippedNames
      decide
  · intro p hp hne
    rcases mem_insertA _ _ _ _ hp with h | h
    · exact (hinv p h).2
    · exact absurd (congrArg Prod.fst h) hne

/-! ## Metadata lemmas and claim C8 -/

theorem pyReprBytes_ne_nil (b : List Nat) : pyReprBytes b ≠ [] := by
  unfold pyReprBytes
  simp

theorem getMetadata_some (info : List (Str × RawValue)) (fpt : Option Str)
    (hne : info ≠ []) :
    getMetadata (some info) fpt =
      (if normValue ((lookupL info "/Title".data).getD (RawValue.strV [])) = [] then
         match fpt with
         | none => metaEntries info
         | some t =>
           match ((splitLines t).map stripL).filter (· ≠ []) with
           | [] => metaEntries info
           | h :: _ => insertA (metaEntries info) "title".data h
       else metaEntries info) := by
  show (let m : AList := if info = [] then [] else
          metaKeys.foldl (fun m k =>
            insertA m (normKey k)
              (normValue ((lookupL info k).getD (RawValue.strV [])))) [];
        if lookupL m "title".data = none ∨ lookupL m "title".data = some [] then
          match fpt with
          | none => m
          | some t =>
            match ((splitLines t).map stripL).filter (· ≠ []) with
            | [] => m
            | h :: _ => insertA m "title".data h
        else m) = _
  rw [if_neg hne]
  have hm : metaKeys.foldl (fun m k =>
      insertA m (normKey k)
        (normValue ((lookupL info k).getD (RawValue.strV [])))) [] =
      metaEntries info := rfl
  rw [hm]
  show (if lookupL (metaEntries info) "title".data = none ∨
        lookupL (metaEntries info) "title".data = some [] then
        match fpt with
        | none => metaEntries info
        | some t =>
          match ((splitLines t).map stripL).filter (· ≠ []) with
          | [] => metaEntries info
          | h :: _ => insertA (metaEntries info) "title".data h
      else metaEntries info) = _
  have hlt : lookupL (metaEntries info) "title".data =
      some (normValue ((lookupL info "/Title".data).getD (RawValue.strV []))) := rfl
  rw [hlt]
  by_cases hT : normValue ((lookupL info "/Title".data).getD (RawValue.strV [])) = []
  · rw [if_pos (Or.inr (by rw [hT])), if_pos hT]
  · rw [if_neg (by
      push_neg
      exact ⟨by simp, by simpa using hT⟩), if_neg hT]

theorem lookupL_getMetadata_of_ne_title (info : List (Str × RawValue))
    (fpt : Option Str) (hne : info ≠ []) (k2 : Str)
    (h2 : k2 ≠ "title".data) :
    lookupL (getMetadata (some info) fpt) k2 = lookupL (metaEntries info) k2 := by
  rw [getMetadata_some info fpt hne]
  by_cases hT : normValue ((lookupL info "/Title".data).getD (RawValue.strV [])) = []
  · rw [if_pos hT]
    cases fpt with
    | none => rfl
    | some t =>
      show lookupL (match ((splitLines t).map stripL).filter (· ≠ []) with
            | [] => metaEntries info
            | h :: _ => insertA (metaEntries info) "title".data h) k2 = _
      cases hf : ((splitLines t).map stripL).filter (· ≠ []) with
      | nil => rfl
      | cons h r => exact lookupL_insertA_ne _ _ _ _ h2
  · rw [if_neg hT]

/-- Claim C8: `get_metadata` never raises; for each recognized key whose
raw value is a byte sequence that strict UTF-8 decoding rejects, the stored
value is Python's `str()` of the bytes object — a non-empty string — so a
document with byte-encoded non-UTF8 title metadata yields a non-empty title
without an exception. -/
theorem claim_C8 (info : List (Str × RawValue)) (fpt : Option Str) (k : Str)
    (b : List Nat)
    (hk : k ∈ metaKeys)
    (hv : lookupL info k = some (RawValue.bytesV b))
    (hdec : utf8Decode b = none) :
    lookupL (getMetadata (some info) fpt) (normKey k) = some (pyReprBytes b) ∧
    pyReprBytes b ≠ [] := by
  have hne : info ≠ [] := by
    intro h
    rw [h] at hv
    exact absurd hv (by simp [lookupL])
  have hval : normValue ((lookupL info k).getD (RawValue.strV [])) =
      pyReprBytes b := by
    rw [hv]
    show (match utf8Decode b with
          | some s => s
          | none => pyReprBytes b) = _
    rw [hdec]
  refine ⟨?_, pyReprBytes_ne_nil b⟩
  have hk3 : k = "/Title".data ∨ k = "/Author".data ∨
      k = "/CreationDate".data := by
    simpa [metaKeys] using hk
  rcases hk3 with rfl | rfl | rfl
  · rw [show normKey "/Title".data = "title".data from rfl]
    rw [getMetadata_some info fpt hne]
    rw [if_neg (by rw [hval]; exact pyReprBytes_ne_nil b)]
    show some (normValue ((lookupL info "/Title".data).getD (RawValue.strV []))) = _
    rw [hval]
  · rw [show normKey "/Author".data = "author".data from rfl]
    rw [lookupL_getMetadata_of_ne_title info fpt hne _ (by decide)]
    show some (normValue ((lookupL info "/Author".data).getD (RawValue.strV []))) = _
    rw [hval]
  · rw [show normKey "/CreationDate".data = "creationdate".data from rfl]
    rw [lookupL_getMetadata_of_ne_title info fpt hne _ (by decide)]
    show some (normValue ((lookupL info "/CreationDate".data).getD (RawValue.strV []))) = _
    rw [hval]

/-- Claim C8, witness: a title whose metadata value is the invalid UTF-8
byte sequence `0xFF`. -/
theorem claim_C8_witness :
    lookupL (getMetadata (some [("/Title".data, RawValue.bytesV [255])]) none)
      (normKey "/Title".data) = some (pyReprBytes [255]) ∧
    pyReprBytes [255] ≠ [] :=
  claim_C8 [("/Title".data, RawValue.bytesV [255])] none "/Title".data [255]
    (by decide) (by decide) (by decide)

/-! ## The pattern rule as a language: lemmas for claim C6 -/

theorem findSome?_isSome_iff {α β : Type} (l : List α) (f : α → Option β) :
    (l.findSome? f).isSome ↔ ∃ x ∈ l, (f x).isSome := by
  induction l with
  | nil => simp [List.findSome?_nil]
  | cons a t ih =>
    rw [List.findSome?_cons]
    cases hfa : f a with
    | some b => simp [hfa]
    | none => simp [hfa, ih]

theorem isPrefixOf_iff (l1 l2 : Str) :
    l1.isPrefixOf l2 = true ↔ ∃ r, l2 = l1 ++ r := by
  induction l1 generalizing l2 with
  | nil =>
    simp [List.isPrefixOf]
  | cons a t ih =>
    cases l2 with
    | nil =>
      show List.isPrefixOf (a :: t) [] = true ↔ _
      simp [List.isPrefixOf]
    | cons b u =>
      show (a == b && t.isPrefixOf u) = true ↔ _
      rw [Bool.and_eq_true, beq_iff_eq, ih]
      constructor
      · rintro ⟨rfl, r, rfl⟩
        exact ⟨r, rfl⟩
      · rintro ⟨r, hr⟩
        rcases List.cons_eq_cons.mp hr with ⟨rfl, rfl⟩
        exact ⟨rfl, r, rfl⟩

theorem countWhile_le_length (p : Char → Bool) (l : Str) :
    countWhile p l ≤ l.length := by
  induction l with
  | nil => simp [countWhile]
  | cons c r ih =>
    rw [countWhile_cons]
    by_cases hc : p c
    · rw [if_pos hc]
      simpa using ih
    · rw [if_neg hc]
      simp

theorem le_countWhile_iff (p : Char → Bool) (l : Str) (d : Nat) :
    d ≤ countWhile p l ↔ d ≤ l.length ∧ ∀ x ∈ l.take d, p x := by
  induction l generalizing d with
  | nil =>
    simp [countWhile]
  | cons c r ih =>
    cases d with
    | zero => simp
    | succ d2 =>
      rw [countWhile_cons]
      by_cases hc : p c
      · rw [if_pos hc, Nat.succ_le_succ_iff, ih]
        simp only [List.take_succ_cons, List.length_cons, List.mem_cons,
          Nat.succ_le_succ_iff]
        constructor
        · rintro ⟨h1, h2⟩
          exact ⟨h1, by
            rintro x (rfl | hx)
            · exact hc
            · exact h2 x hx⟩
        · rintro ⟨h1, h2⟩
          exact ⟨h1, fun x hx => h2 x (Or.inr hx)⟩
      · rw [if_neg hc]
        constructor
        · omega
        · rintro ⟨h1, h2⟩
          exact absurd (h2 c (by simp)) (by simpa using hc)

theorem head?_take (l : Str) (n : Nat) (h : 0 < n) :
    (l.take n).head? = l.head? := by
  cases l with
  | nil => simp
  | cons c r =>
    cases n with
    | zero => omega
    | succ m => simp

theorem head?_eq_cons (l : Str) (a : Char) :
    l.head? = some a ↔ ∃ r, l = a :: r := by
  cases l with
  | nil => simp
  | cons c r =>
    simp only [List.head?_cons, Option.some.injEq, List.cons.injEq]
    constructor
    · rintro rfl
      exact ⟨r, rfl, rfl⟩
    · rintro ⟨r2, rfl, rfl⟩
      rfl

theorem mem_descFrom1 (n d : Nat) : d ∈ descFrom1 n ↔ 1 ≤ d ∧ d ≤ n := by
  simp only [descFrom1, List.mem_map, List.mem_reverse, List.mem_range]
  constructor
  · rintro ⟨a, ha, rfl⟩
    omega
  · rintro ⟨h1, h2⟩
    exact ⟨d - 1, by omega, by omega⟩

theorem mem_descFrom0 (n d : Nat) : d ∈ descFrom0 n ↔ d ≤ n := by
  simp only [descFrom0, List.mem_reverse, List.mem_range]
  omega

theorem mem_dotOpts (r : Str) (dt : Nat) :
    dt ∈ dotOpts r ↔ (dt = 0 ∨ (dt = 1 ∧ r.head? = some '.')) := by
  unfold dotOpts
  by_cases h : r.head? = some '.'
  · rw [if_pos h]
    simp [h]
    tauto
  · rw [if_neg h]
    simp [h]

theorem mem_digitEndpoints (t : Str) (e : Nat) :
    e ∈ digitEndpoints t ↔
      ∃ d1 dt d2 s : Nat,
        (1 ≤ d1 ∧ d1 ≤ countWhile isDigitC t) ∧
        dt ∈ dotOpts (t.drop d1) ∧
        d2 ≤ countWhile isDigitC (t.drop (d1 + dt)) ∧
        s ≤ countWhile isPySpace (t.drop (d1 + dt + d2)) ∧
        d1 + dt + d2 + s = e := by
  simp only [digitEndpoints, List.mem_flatMap, List.mem_map, mem_descFrom1,
    mem_descFrom0]
  constructor
  · rintro ⟨d1, hd1, dt, hdt, d2, hd2, s, hs, rfl⟩
    exact ⟨d1, dt, d2, s, hd1, hdt, hd2, hs, rfl⟩
  · rintro ⟨d1, dt, d2, s, hd1, hdt, hd2, hs, rfl⟩
    exact ⟨d1, hd1, dt, hdt, d2, hd2, s, hs, rfl⟩

theorem mem_romanEndpoints (t : Str) (e : Nat) :
    e ∈ romanEndpoints t ↔
      ∃ d1 dt s : Nat,
        (1 ≤ d1 ∧ d1 ≤ countWhile isRomanLower t) ∧
        dt ∈ dotOpts (t.drop d1) ∧
        s ≤ countWhile isPySpace (t.drop (d1 + dt)) ∧
        d1 + dt + s = e := by
  simp only [romanEndpoints, List.mem_flatMap, List.mem_map, mem_descFrom1,
    mem_descFrom0]
  constructor
  · rintro ⟨d1, hd1, dt, hdt, s, hs, rfl⟩
    exact ⟨d1, dt, s, hd1, hdt, hs, rfl⟩
  · rintro ⟨d1, dt, s, hd1, hdt, hs, rfl⟩
    exact ⟨d1, hd1, dt, hdt, s, hs, rfl⟩

theorem dropWhile_append_of_all {p : Char → Bool} (s q : Str)
    (h : ∀ x ∈ s, p x) : (s ++ q).dropWhile p = q.dropWhile p := by
  induction s with
  | nil => rfl
  | cons c r ih =>
    rw [List.cons_append, List.dropWhile_cons,
      if_pos (h c (List.mem_cons_self _ _))]
    exact ih (fun x hx => h x (List.mem_cons_of_mem _ hx))

theorem suffixOkB_iff (r : Str) : suffixOkB r = true ↔ ColonSuffix r := by
  unfold suffixOkB ColonSuffix
  cases r with
  | nil => simp
  | cons c q =>
    rw [Bool.or_eq_true]
    constructor
    · rintro (h | h)
      · simp at h
      · right
        rw [beq_iff_eq] at h
        rcases (head?_eq_cons _ ':').mp h with ⟨r2, hr2⟩
        refine ⟨(c :: q).takeWhile isPySpace, r2, ?_, ?_⟩
        · conv_lhs => rw [← List.takeWhile_append_dropWhile isPySpace (c :: q)]
          rw [hr2]
        · intro x hx
          exact List.mem_takeWhile_imp hx
    · rintro (h | ⟨s, r2, hr, hs⟩)
      · simp at h
      · right
        rw [hr, dropWhile_append_of_all s _ hs]
        rw [List.dropWhile_cons, if_neg (by decide)]
        rfl

theorem mem_digitEndpoints_iff_shape (t : Str) (e : Nat) :
    e ∈ digitEndpoints t ↔ DigitShape (t.take e) ∧ e ≤ t.length := by
  rw [mem_digitEndpoints]
  constructor
  · rintro ⟨d1, dt, d2, s, ⟨h11, h12⟩, hdt, hd2, hs, rfl⟩
    have hcw1le := countWhile_le_length isDigitC t
    have hcw2le := countWhile_le_length isDigitC (t.drop (d1 + dt))
    have hcw3le := countWhile_le_length isPySpace (t.drop (d1 + dt + d2))
    have hld : (t.drop (d1 + dt)).length = t.length - (d1 + dt) :=
      List.length_drop ..
    have hld2 : (t.drop (d1 + dt + d2)).length = t.length - (d1 + dt + d2) :=
      List.length_drop ..
    have hdtle : d1 + dt ≤ t.length := by
      rcases (mem_dotOpts _ _).mp hdt with rfl | ⟨rfl, hdot⟩
      · omega
      · rcases (head?_eq_cons _ '.').mp hdot with ⟨r2, hr2⟩
        have h3 : (t.drop d1).length = t.length - d1 := List.length_drop ..
        rw [hr2] at h3
        simp only [List.length_cons] at h3
        omega
    have helen : d1 + dt + d2 + s ≤ t.length := by omega
    refine ⟨⟨t.take d1, (t.drop d1).take dt, (t.drop (d1 + dt)).take d2,
      (t.drop (d1 + dt + d2)).take s, ?_, ?_, ?_, ?_, ?_, ?_⟩, helen⟩
    · have ha : d1 + dt + d2 + s = d1 + (dt + (d2 + s)) := by omega
      rw [ha, List.take_add, List.take_add, List.take_add, List.drop_drop,
        List.drop_drop]
      simp [List.append_assoc]
    · have hlen : (t.take d1).length = d1 := by
        rw [List.length_take]
        omega
      intro hc
      rw [hc] at hlen
      simp at hlen
      omega
    · exact ((le_countWhile_iff _ _ _).mp h12).2
    · rcases (mem_dotOpts _ _).mp hdt with rfl | ⟨rfl, hdot⟩
      · left
        simp
      · right
        rcases (head?_eq_cons _ '.').mp hdot with ⟨r2, hr2⟩
        rw [hr2]
        rfl
    · exact ((le_countWhile_iff _ _ _).mp hd2).2
    · exact ((le_countWhile_iff _ _ _).mp hs).2
  · rintro ⟨⟨a, b, c, d, hsum, hane, hadig, hbopt, hcdig, hdsp⟩, hle⟩
    rw [List.append_assoc, List.append_assoc] at hsum
    have hlt : (t.take e).length = e := by
      rw [List.length_take]
      omega
    have hlen : a.length + (b.length + (c.length + d.length)) = e := by
      rw [hsum] at hlt
      simpa [List.length_append] using hlt
    have hblen : b.length = 0 ∨ b.length = 1 := by
      rcases hbopt with rfl | rfl
      · left; rfl
      · right; rfl
    have hta : t.take a.length = a := by
      have h1 : (t.take e).take a.length = a := by
        rw [hsum]
        exact List.take_left ..
      rwa [List.take_take, min_eq_left (by omega)] at h1
    have hseg1 : (t.drop a.length).take (e - a.length) = b ++ (c ++ d) := by
      have h1 : (t.take e).drop a.length = b ++ (c ++ d) := by
        rw [hsum]
        exact List.drop_left ..
      rwa [List.drop_take] at h1
    have hseg2 : (t.drop (a.length + b.length)).take (e - (a.length + b.length)) =
        c ++ d := by
      have h1 : (t.take e).drop (a.length + b.length) = c ++ d := by
        rw [hsum, ← List.append_assoc, ← List.length_append]
        exact List.drop_left ..
      rwa [List.drop_take] at h1
    have htc : (t.drop (a.length + b.length)).take c.length = c := by
      have h2 : ((t.drop (a.length + b.length)).take
          (e - (a.length + b.length))).take c.length = c := by
        rw [hseg2]
        exact List.take_left ..
      rwa [List.take_take, min_eq_left (by omega)] at h2
    have hseg3 : (t.drop (a.length + b.length + c.length)).take d.length = d := by
      have h1 : (t.take e).drop (a.length + b.length + c.length) = d := by
        rw [hsum, ← List.append_assoc, ← List.append_assoc]
        have h2 : (a ++ b ++ c).length = a.length + b.length + c.length := by
          simp [List.length_append]
          omega
        rw [← h2]
        exact List.drop_left ..
      rw [List.drop_take] at h1
      rwa [show e - (a.length + b.length + c.length) = d.length from by omega] at h1
    refine ⟨a.length, b.length, c.length, d.length, ⟨?_, ?_⟩, ?_, ?_, ?_,
      by omega⟩
    · have := List.length_pos.mpr hane
      omega
    · exact (le_countWhile_iff _ _ _).mpr ⟨by omega, by rw [hta]; exact hadig⟩
    · rcases hbopt with rfl | rfl
      · exact (mem_dotOpts _ _).mpr (Or.inl rfl)
      · refine (mem_dotOpts _ _).mpr (Or.inr ⟨rfl, ?_⟩)
        have h3 : 0 < e - a.length := by
          simp only [List.length_cons, List.length_nil] at hlen
          omega
        have h4 := head?_take (t.drop a.length) (e - a.length) h3
        rw [hseg1] at h4
        rw [← h4]
        rfl
    · refine (le_countWhile_iff _ _ _).mpr ⟨?_, by rw [htc]; exact hcdig⟩
      rw [List.length_drop]
      omega
    · refine (le_countWhile_iff _ _ _).mpr ⟨?_, by rw [hseg3]; exact hdsp⟩
      rw [List.length_drop]
      omega

theorem mem_romanEndpoints_iff_shape (t : Str) (e : Nat) :
    e ∈ romanEndpoints t ↔ RomanShape (t.take e) ∧ e ≤ t.length := by
  rw [mem_romanEndpoints]
  constructor
  · rintro ⟨d1, dt, s, ⟨h11, h12⟩, hdt, hs, rfl⟩
    have hcw1le := countWhile_le_length isRomanLower t
    have hcw3le := countWhile_le_length isPySpace (t.drop (d1 + dt))
    have hld : (t.drop (d1 + dt)).length = t.length - (d1 + dt) :=
      List.length_drop ..
    have hdtle : d1 + dt ≤ t.length := by
      rcases (mem_dotOpts _ _).mp hdt with rfl | ⟨rfl, hdot⟩
      · omega
      · rcases (head?_eq_cons _ '.').mp hdot with ⟨r2, hr2⟩
        have h3 : (t.drop d1).length = t.length - d1 := List.length_drop ..
        rw [hr2] at h3
        simp only [List.length_cons] at h3
        omega
    have helen : d1 + dt + s ≤ t.length := by omega
    refine ⟨⟨t.take d1, (t.drop d1).take dt, (t.drop (d1 + dt)).take s,
      ?_, ?_, ?_, ?_, ?_⟩, helen⟩
    · have ha : d1 + dt + s = d1 + (dt + s) := by omega
      rw [ha, List.take_add, List.take_add, List.drop_drop]
      simp [List.append_assoc]
    · have hlen : (t.take d1).length = d1 := by
        rw [List.length_take]
        omega
      intro hc
      rw [hc] at hlen
      simp at hlen
      omega
    · exact ((le_countWhile_iff _ _ _).mp h12).2
    · rcases (mem_dotOpts _ _).mp hdt with rfl | ⟨rfl, hdot⟩
      · left
        simp
      · right
        rcases (head?_eq_cons _ '.').mp hdot with ⟨r2, hr2⟩
        rw [hr2]
        rfl
    · exact ((le_countWhile_iff _ _ _).mp hs).2
  · rintro ⟨⟨a, b, d, hsum, hane, harom, hbopt, hdsp⟩, hle⟩
    rw [List.append_assoc] at hsum
    have hlt : (t.take e).length = e := by
      rw [List.length_take]
      omega
    have hlen : a.length + (b.length + d.length) = e := by
      rw [hsum] at hlt
      simpa [List.length_append] using hlt
    have hta : t.take a.length = a := by
      have h1 : (t.take e).take a.length = a := by
        rw [hsum]
        exact List.take_left ..
      rwa [List.take_take, min_eq_left (by omega)] at h1
    have hseg1 : (t.drop a.length).take (e - a.length) = b ++ d := by
      have h1 : (t.take e).drop a.length = b ++ d := by
        rw [hsum]
        exact List.drop_left ..
      rwa [List.drop_take] at h1
    have hseg2 : (t.drop (a.length + b.length)).take d.length = d := by
      have h1 : (t.take e).drop (a.length + b.length) = d := by
        rw [hsum, ← List.append_assoc, ← List.length_append]
        exact List.drop_left ..
      rw [List.drop_take] at h1
      rwa [show e - (a.length + b.length) = d.length from by omega] at h1
    refine ⟨a.length, b.length, d.length, ⟨?_, ?_⟩, ?_, ?_, by omega⟩
    · have := List.length_pos.mpr hane
      omega
    · exact (le_countWhile_iff _ _ _).mpr ⟨by omega, by rw [hta]; exact harom⟩
    · rcases hbopt with rfl | rfl
      · exact (mem_dotOpts _ _).mpr (Or.inl rfl)
      · refine (mem_dotOpts _ _).mpr (Or.inr ⟨rfl, ?_⟩)
        have h3 : 0 < e - a.length := by
          simp only [List.length_cons, List.length_nil] at hlen
          omega
        have h4 := head?_take (t.drop a.length) (e - a.length) h3
        rw [hseg1] at h4
        rw [← h4]
        rfl
    · refine (le_countWhile_iff _ _ _).mpr ⟨?_, by rw [hseg2]; exact hdsp⟩
      rw [List.length_drop]
      omega

/-- Claim C6, counterexample: the line `"2introduction"` — an ordinal
prefix with NO whitespace before the vocabulary token — is accepted by the
pattern rule (the regex uses `\s*`, optional whitespace), contradicting the
claim that whitespace is required. -/
theorem claim_C6_counterexample :
    matchPattern (toLowerL (stripL "2introduction".data)) =
      some "introduction".data ∧
    isSectionHeader "2introduction".data = some "introduction".data := by
  decide

/-- Claim C6, amended: applied to the lower-cased trimmed line, the pattern
rule accepts exactly the strings of the form: an optional leading ordinal
marker — digits, an optional dot, more digits, then OPTIONAL whitespace, or
Roman-numeral letters i/v/x, an optional dot, then OPTIONAL whitespace —
followed by a vocabulary token, followed by end-of-line or by optional
whitespace, a colon and anything.  The match is anchored at line start; the
only correction to the claim is that the whitespace after the ordinal
marker is optional, not required. -/
theorem claim_C6_amended (t : Str) :
    (matchPattern t).isSome ↔ HeaderShape t := by
  unfold matchPattern
  rw [findSome?_isSome_iff]
  constructor
  · rintro ⟨e, he, hf⟩
    rw [List.find?_isSome] at hf
    obtain ⟨tok, htok, hp⟩ := hf
    rw [Bool.and_eq_true] at hp
    obtain ⟨hpref, hsuff⟩ := hp
    obtain ⟨r, hr⟩ := (isPrefixOf_iff tok (t.drop e)).mp hpref
    have hdrop : t.drop (e + tok.length) = r := by
      have h1 : t.drop (e + tok.length) = (t.drop e).drop tok.length :=
        (List.drop_drop ..).symm
      rw [h1, hr, List.drop_left]
    refine ⟨t.take e, tok, r, ?_, htok, ?_,
      (suffixOkB_iff r).mp (by rwa [hdrop] at hsuff)⟩
    · conv_lhs => rw [← List.take_append_drop e t]
      rw [hr]
      exact (List.append_assoc _ tok r).symm
    · rcases List.mem_append.mp he with he2 | he2
      · rcases List.mem_append.mp he2 with he3 | he3
        · exact Or.inr (Or.inl ((mem_digitEndpoints_iff_shape t e).mp he3).1)
        · exact Or.inr (Or.inr ((mem_romanEndpoints_iff_shape t e).mp he3).1)
      · have he0 : e = 0 := by simpa using he2
        subst he0
        exact Or.inl rfl
  · rintro ⟨p, tok, r, rfl, htok, hord, hcs⟩
    have hdropp : (p ++ tok ++ r).drop p.length = tok ++ r := by
      rw [List.append_assoc]
      exact List.drop_left ..
    refine ⟨p.length, ?_, ?_⟩
    · rcases hord with hp0 | hd | hr2
      · apply List.mem_append.mpr
        right
        rw [hp0]
        simp
      · apply List.mem_append.mpr (Or.inl (List.mem_append.mpr (Or.inl ?_)))
        apply (mem_digitEndpoints_iff_shape _ _).mpr
        constructor
        · have h1 : (p ++ tok ++ r).take p.length = p := by
            rw [List.append_assoc]
            exact List.take_left ..
          rwa [h1]
        · simp [List.length_append]
      · apply List.mem_append.mpr (Or.inl (List.mem_append.mpr (Or.inr ?_)))
        apply (mem_romanEndpoints_iff_shape _ _).mpr
        constructor
        · have h1 : (p ++ tok ++ r).take p.length = p := by
            rw [List.append_assoc]
            exact List.take_left ..
          rwa [h1]
        · simp [List.length_append]
    · rw [List.find?_isSome]
      refine ⟨tok, htok, ?_⟩
      rw [Bool.and_eq_true]
      constructor
      · rw [hdropp]
        exact (isPrefixOf_iff ..).mpr ⟨r, rfl⟩
      · have h2 : (p ++ tok ++ r).drop (p.length + tok.length) = r := by
          have h1 : (p ++ tok ++ r).drop (p.length + tok.length) =
              ((p ++ tok ++ r).drop p.length).drop tok.length :=
            (List.drop_drop ..).symm
          rw [h1, hdropp, List.drop_left]
        rw [h2]
        exact (suffixOkB_iff r).mpr hcs

end PaperSummarizer
